import Mathlib

/-!
Verification development for the `nblfq` bounded lock-free FIFO queue.

Shallow embedding of the Rust sources:
  * `src/utils.rs`        : `prev`, `comp`, tagged-pointer encoding
  * `src/components.rs`   : slot cells (`MAX_W` constants, component-level CAS)
  * `src/arrayqueue.rs`   : `ArrayQueue` `push` / `pop` / `len`, the
                            `HeapBackedQueue` / `HeaplessQueue` constructors and
                            `force_push`

Machine integers (`u64`, `usize`) are modelled as `Nat` with explicit
`% 2 ^ 64` where the source relies on wrapping; pointers are modelled as
`Option α` (with `none` playing the role of the null pointer).  The unbounded
retry loops of the source are given an explicit fuel parameter; `none` as an
operation result means "fuel exhausted" (the source would still be spinning).
A CAS is modelled at the component level: it succeeds exactly when the slot
currently holds the expected `(counter, pointer)` pair, which matches both
slot encodings whenever counters are in range and pointers canonical.
All operations are sequential (single-thread interleavings): a step reads and
writes the queue state atomically, which is the semantics of an uncontended
execution of the source.
-/

namespace Nblfq

/-- A slot cell: `(counter, pointer)` where `none` is the null pointer.
Mirrors `GenericItem` of `src/components.rs` at the component level. -/
abbrev Slot (α : Type) := Nat × Option α

/-- The queue state: buffer of slots plus the advisory `head`/`tail` indices.
Mirrors `ArrayQueue` of `src/arrayqueue.rs`. -/
structure Queue (α : Type) where
  slots : List (Slot α)
  head : Nat
  tail : Nat
deriving DecidableEq, Repr

/-- `utils.rs` `prev`: `(i + size - 1) % size`. -/
def prevIdx (i size : Nat) : Nat := (i + size - 1) % size

/-- `utils.rs` `comp`: the slot-ordering predicate `before`.
`u`, `v`, `w_max` are `u64`; `wrapping_add`/`wrapping_sub` are modelled by
explicit `% 2 ^ 64` (for `u < 2 ^ 64` the double addition of `2 ^ 64` keeps
the natural subtraction exact).  Defined for `w ≥ 1`; the source panics on a
zero modulus. -/
def comp (i u j v w : Nat) : Bool :=
  if u = v then decide (i < j)
  else decide ((((v + w) % 2 ^ 64 + 2 ^ 64 - u) % 2 ^ 64) % w < w / 2)

/-- `TaggedItemInner::MAX_W = u16::MAX as u64 + 1` (`src/components.rs`). -/
def TaggedMAX_W : Nat := 65535 + 1

/-- `DWordItemInner::MAX_W = u64::MAX` (`src/components.rs`). -/
def DWordMAX_W : Nat := 18446744073709551615

/-- `utils.rs` `components_as_tagged`: `(count << 48) | (ptr & ((1 << 48) - 1))`
in `u64` arithmetic. -/
def componentsAsTagged (count ptr : Nat) : Nat :=
  ((count <<< 48) % 2 ^ 64) ||| (ptr &&& (2 ^ 48 - 1))

/-- `utils.rs` `sign_extend`: if bit 47 is set, OR in the complement of the
low-48 mask (`!((1u64 << 48) - 1) = 2 ^ 64 - 2 ^ 48`). -/
def signExtend48 (ptr : Nat) : Nat :=
  if ptr &&& (1 <<< 47) ≠ 0 then ptr ||| (2 ^ 64 - 2 ^ 48) else ptr

/-- `utils.rs` `components_from_tagged`. -/
def componentsFromTagged (x : Nat) : Nat × Nat :=
  (x >>> 48, signExtend48 (x &&& (2 ^ 48 - 1)))

/-- A canonical 64-bit pointer: its top 16 bits are the sign-extension of
bit 47 (x86_64 / AArch64 canonical virtual addresses). -/
def Canonical (p : Nat) : Prop := p < 2 ^ 64 ∧ signExtend48 (p % 2 ^ 48) = p

/-- The freshly constructed buffer: every slot `(0, null)`, hints at `0`.
Mirrors `ArrayQueue::new_in` with `Item::new()` slots. -/
def freshQ (α : Type) (n : Nat) : Queue α := ⟨List.replicate n (0, none), 0, 0⟩

/-- `HeapBackedQueue::new(size)`: asserts `size > 0` (modelled by `none` on
the panic path), then builds the fresh queue. -/
def heapBackedNew (α : Type) (size : Nat) : Option (Queue α) :=
  if 0 < size then some (freshQ α size) else none

/-- `HeaplessQueue::<N, T>::new()`: asserts `N > 0`. -/
def heaplessNew (α : Type) (n : Nat) : Option (Queue α) :=
  if 0 < n then some (freshQ α n) else none

/-- Result of `ArrayQueue::push`: `Ok(())` or `Err(item)`. -/
inductive PushResult (α : Type) where
  | ok : PushResult α
  | err : α → PushResult α
deriving DecidableEq, Repr

/-- Result of the candidate-search loop inside `push`. -/
inductive SearchRes (α : Type) where
  | full : SearchRes α
  | found : Nat → Nat → Option α → SearchRes α
deriving DecidableEq, Repr

/-- The inner candidate-search loop of `ArrayQueue::push`
(`src/arrayqueue.rs` lines 101-129).  Walks `head` until it either accepts a
slot (breaking with `(head, prev_count, prev_ptr)`), or reports full.  A
failed buffer access (`ok_or(item)?`) also surfaces as `Err(item)`, hence
`.full` here.  `none` = fuel exhausted. -/
def pushSearch (W : Nat) : Nat → Queue α → Nat → Option (SearchRes α)
  | 0, _, _ => none
  | fuel + 1, q, head =>
    let N := q.slots.length
    let pIdx := prevIdx head N
    match q.slots[head]?, q.slots[pIdx]? with
    | some cur, some prv =>
      if prv.2.isSome && cur.2.isNone then
        some (.found head prv.1 prv.2)
      else if !comp pIdx prv.1 head cur.1 W && prv.2.isNone && cur.2.isNone then
        some (.found head prv.1 prv.2)
      else if !comp pIdx prv.1 head cur.1 W && prv.2.isSome && cur.2.isSome then
        some .full
      else
        pushSearch W fuel q ((head + 1) % N)
    | _, _ => some .full

/-- The outer retry loop of `ArrayQueue::push`: search, compute the counter
to install, then CAS `(null, new_counter) → (item, new_counter)` on the
candidate slot; on CAS failure retry keeping the advanced head. -/
def pushGo (W : Nat) [DecidableEq α] :
    Nat → Queue α → Nat → α → Option (PushResult α × Queue α)
  | 0, _, _, _ => none
  | fuel + 1, q, head, x =>
    let N := q.slots.length
    match pushSearch W (fuel + 1) q head with
    | none => none
    | some .full => some (.err x, q)
    | some (.found h c pp) =>
      let c1 := if pp.isNone then (c + W - 1) % W else c
      let newCounter := if h = 0 then (c1 + 1) % W else c1
      match q.slots[h]? with
      | none => some (.err x, q)
      | some s =>
        if s = ((newCounter, none) : Slot α) then
          some (.ok, ⟨q.slots.set h (newCounter, some x), (h + 1) % N, q.tail⟩)
        else
          pushGo W fuel q h x

/-- `ArrayQueue::push` (`src/arrayqueue.rs` lines 98-155). -/
def pushF (W fuel : Nat) [DecidableEq α] (q : Queue α) (x : α) :
    Option (PushResult α × Queue α) :=
  pushGo W fuel q q.head x

/-- Result of the stale-tail skip loop inside `pop`: either the early
`return None` caused by a failed buffer access (`get(tail)?`), or the final
loop variables. -/
inductive SkipRes (α : Type) where
  | bail : SkipRes α
  | step : Nat → Nat → Option α → Nat → Option α → SkipRes α
deriving DecidableEq, Repr

/-- The skip-stale-tails loop of `ArrayQueue::pop`
(`src/arrayqueue.rs` lines 65-77): while `comp` holds, advance `tail`,
shifting `(prev, current)` and re-reading the new current slot. -/
def popSkip (W : Nat) :
    Nat → Queue α → Nat → Nat → Option α → Nat → Option α → Option (SkipRes α)
  | 0, _, _, _, _, _, _ => none
  | fuel + 1, q, tail, pc, pp, cc, cp =>
    let N := q.slots.length
    if comp (prevIdx tail N) pc tail cc W then
      let t := (tail + 1) % N
      match q.slots[t]? with
      | none => some .bail
      | some cur => popSkip W fuel q t cc cp cur.1 cur.2
    else
      some (.step tail pc pp cc cp)

/-- The outer retry loop of `ArrayQueue::pop` (`src/arrayqueue.rs` lines
56-94).  Result: `none` = fuel exhausted; `some (none, q)` = returned `None`;
`some (some p, q)` = returned `Some(p)` (for the raw-pointer queue `p` itself
is an `Option α`, `none` standing for a null pointer). -/
def popGo (W : Nat) [DecidableEq α] :
    Nat → Queue α → Option (Option (Option α) × Queue α)
  | 0, _ => none
  | fuel + 1, q =>
    let N := q.slots.length
    let tail := q.tail
    let pIdx := prevIdx tail N
    match q.slots[pIdx]?, q.slots[tail]? with
    | some prv, some cur =>
      match popSkip W (fuel + 1) q tail prv.1 prv.2 cur.1 cur.2 with
      | none => none
      | some .bail => some (none, q)
      | some (.step t _pc pp cc cp) =>
        if pp.isNone && cp.isNone then
          some (none, q)
        else
          let nextCount := (cc + 1) % W
          if q.slots[t]? = some ((cc, cp) : Slot α) then
            some (some cp, ⟨q.slots.set t (nextCount, none), q.head, (t + 1) % N⟩)
          else
            popGo W fuel q
    | _, _ => some (none, q)

/-- `ArrayQueue::pop`. -/
def popF (W fuel : Nat) [DecidableEq α] (q : Queue α) :
    Option (Option (Option α) × Queue α) :=
  popGo W fuel q

/-- `ArrayQueue::capacity`. -/
def capacityQ (q : Queue α) : Nat := q.slots.length

/-- `ArrayQueue::len` (`src/arrayqueue.rs` lines 164-191).  The `.expect`
panic on an out-of-range head is modelled by `none`. -/
def lenQ (q : Queue α) : Option Nat :=
  let N := q.slots.length
  if q.head ≠ q.tail then
    some (if q.head < q.tail then N - q.tail + q.head else q.head - q.tail)
  else
    (q.slots[q.head]?).map (fun s => if s.2.isNone then 0 else N)

/-- `force_push` of `HeapBackedQueue` / `HeaplessQueue`
(`src/arrayqueue.rs` lines 258-273 and 394-407): retry `push`; after each
failed attempt, `pop` once (the spin backoff has no effect on the state) and
remember the popped value; return the last popped value once a push lands. -/
def forcePushGo (W : Nat) [DecidableEq α] :
    Nat → Queue α → α → Option (Option α) → Option (Option (Option α) × Queue α)
  | 0, _, _, _ => none
  | fuel + 1, q, x, popped =>
    match pushF W (fuel + 1) q x with
    | none => none
    | some (.ok, q1) => some (popped, q1)
    | some (.err x1, q1) =>
      match popF W (fuel + 1) q1 with
      | none => none
      | some (res, q2) => forcePushGo W fuel q2 x1 res

/-- `force_push` entry point: `popped_item` starts as `None`. -/
def forcePushF (W fuel : Nat) [DecidableEq α] (q : Queue α) (x : α) :
    Option (Option (Option α) × Queue α) :=
  forcePushGo W fuel q x none

/-- Modelled from the spec (§4.2 `force_push` and claim C3), for comparison
with `forcePushF`: when a plain push would report full, perform a single
overwriting CAS on the slot at `head`, replacing `(curr_counter, curr_ptr)`
by `(curr_counter_with_wrap, item_ptr)` where the counter is incremented iff
`head == 0`; on CAS success return `Some(displaced_ptr)`; otherwise retry the
outer loop. -/
def forcePushSpecGo (W : Nat) [DecidableEq α] :
    Nat → Queue α → α → Option (Option (Option α) × Queue α)
  | 0, _, _ => none
  | fuel + 1, q, x =>
    match pushF W (fuel + 1) q x with
    | none => none
    | some (.ok, q1) => some (none, q1)
    | some (.err x1, q1) =>
      let h := q1.head
      match q1.slots[h]? with
      | none => none
      | some s =>
        let cWrap := if h = 0 then (s.1 + 1) % W else s.1
        if q1.slots[h]? = some s then
          some (some s.2, ⟨q1.slots.set h (cWrap, some x1), q1.head, q1.tail⟩)
        else
          forcePushSpecGo W fuel q1 x1

/-- Entry point of the spec-described `force_push`. -/
def forcePushSpecF (W fuel : Nat) [DecidableEq α] (q : Queue α) (x : α) :
    Option (Option (Option α) × Queue α) :=
  forcePushSpecGo W fuel q x

/-- Number of positions `k < X` with `k ≡ i [MOD N]`, for `i < N`: the number
of times the slot at index `i` has been used by the first `X` operations of a
round-robin walk.  Ghost quantity used to characterise sequentially reachable
states. -/
def pcount (X N i : Nat) : Nat := (X + N - 1 - i) / N

/-- Ghost slot contents after `P` pushes (of items `f 0, f 1, …`) and `Q` pops
have completed sequentially: slot `i` is occupied iff fewer pops than pushes
have hit it, its counter is the pop count modulo `W`, and it holds the oldest
unpopped item `f (pcount Q N i * N + i)`. -/
def seqSlot (f : Nat → α) (W P Q N i : Nat) : Slot α :=
  if pcount Q N i < pcount P N i then
    (pcount Q N i % W, some (f (pcount Q N i * N + i)))
  else
    (pcount Q N i % W, none)

/-- Ghost characterisation of the queue state after `P` pushes and `Q` pops
executed sequentially from a fresh queue of capacity `N`. -/
def SeqState (f : Nat → α) (W P Q N : Nat) : Queue α :=
  ⟨List.ofFn (fun i : Fin N => seqSlot f W P Q N i.1), P % N, Q % N⟩

/-- All slot counters are strictly below the counter width. -/
def CountersLT (q : Queue α) (W : Nat) : Prop := ∀ s ∈ q.slots, s.1 < W

/-- Sequential reachability: states obtained from a freshly constructed queue
by completed `push` and `pop` operations. -/
inductive Reach (W N : Nat) [DecidableEq α] : Queue α → Prop where
  | init : Reach W N (freshQ α N)
  | push (q q' : Queue α) (r : PushResult α) (x : α) (fuel : Nat) :
      Reach W N q → pushF W fuel q x = some (r, q') → Reach W N q'
  | pop (q q' : Queue α) (r : Option (Option α)) (fuel : Nat) :
      Reach W N q → popF W fuel q = some (r, q') → Reach W N q'

/-- Push a list of items in order; `none` if any push fails to return `Ok`
(i.e. reports full or runs out of fuel). -/
def pushList (W fuel : Nat) [DecidableEq α] : Queue α → List α → Option (Queue α)
  | q, [] => some q
  | q, x :: xs =>
    match pushF W fuel q x with
    | some (.ok, q') => pushList W fuel q' xs
    | _ => none

/-- Pop `n` times, requiring every pop to return a non-null item. -/
def popList (W fuel : Nat) [DecidableEq α] : Queue α → Nat → Option (List α × Queue α)
  | q, 0 => some ([], q)
  | q, n + 1 =>
    match popF W fuel q with
    | some (some (some x), q') => (popList W fuel q' n).map (fun r => (x :: r.1, r.2))
    | _ => none

/-- An all-empty queue state with adversarial counters `0, 2¹⁵−1, 2¹⁶−2` on
which `pop`'s stale-tail skip loop cycles forever. -/
def qStar : Queue Nat := ⟨[(0, none), (2 ^ 15 - 1, none), (2 ^ 16 - 2, none)], 0, 0⟩

/-- The sequentially reachable full queue of capacity 2 holding `10, 20`
(obtained from fresh by `push 10; push 20`). -/
def qFull2 : Queue Nat := ⟨[(0, some 10), (0, some 20)], 0, 0⟩

/-! ### Arithmetic of `pcount` and the ghost state -/

theorem pcount_eq (N a h i : Nat) (hN : 0 < N) (hh : h < N) (hi : i < N) :
    pcount (N * a + h) N i = a + if i < h then 1 else 0 := by
  unfold pcount
  have h1 : N * a + h + N - 1 - i = (h + N - 1 - i) + N * a := by omega
  rw [h1, Nat.add_mul_div_left _ _ hN]
  rcases Nat.lt_or_ge i h with hih | hih
  · have h2 : h + N - 1 - i = (h - 1 - i) + N := by omega
    rw [h2, Nat.add_div_right _ hN, Nat.div_eq_of_lt (by omega), if_pos hih]
    omega
  · rw [Nat.div_eq_of_lt (by omega), if_neg (by omega)]
    omega

theorem lt_pcount_iff {X N i : Nat} (k : Nat) (hN : 0 < N) (hi : i < N) :
    k < pcount X N i ↔ k * N + i < X := by
  unfold pcount
  rw [Nat.lt_iff_add_one_le, Nat.le_div_iff_mul_le hN]
  have h1 : (k + 1) * N = k * N + N := by ring
  rw [h1]
  omega

theorem pcount_succ {X N i : Nat} (hN : 0 < N) (hi : i < N) :
    pcount (X + 1) N i = pcount X N i + if i = X % N then 1 else 0 := by
  obtain ⟨a, h, hh, hXd⟩ : ∃ a h, h < N ∧ N * a + h = X :=
    ⟨X / N, X % N, Nat.mod_lt _ hN, Nat.div_add_mod X N⟩
  subst hXd
  have hmod : (N * a + h) % N = h := by
    rw [Nat.mul_add_mod, Nat.mod_eq_of_lt hh]
  rw [hmod]
  rcases Nat.lt_or_ge (h + 1) N with hsucc | hsucc
  · have h2 : N * a + h + 1 = N * a + (h + 1) := by omega
    rw [h2, pcount_eq N a (h + 1) i hN hsucc hi, pcount_eq N a h i hN hh hi]
    split_ifs <;> omega
  · have hx : h + 1 = N := by omega
    have h2 : N * a + h + 1 = N * (a + 1) + 0 := by
      rw [Nat.mul_succ]
      omega
    rw [h2, pcount_eq N (a + 1) 0 i hN hN hi, pcount_eq N a h i hN hh hi]
    split_ifs <;> omega

theorem seqSlot_eval (f : Nat → α) (W N a h b t i : Nat) (hN : 0 < N)
    (hh : h < N) (ht : t < N) (hi : i < N) :
    seqSlot f W (N * a + h) (N * b + t) N i =
      if b + (if i < t then 1 else 0) < a + (if i < h then 1 else 0) then
        ((b + (if i < t then 1 else 0)) % W,
          some (f ((b + (if i < t then 1 else 0)) * N + i)))
      else
        ((b + (if i < t then 1 else 0)) % W, none) := by
  unfold seqSlot
  rw [pcount_eq N a h i hN hh hi, pcount_eq N b t i hN ht hi]

theorem SeqState_slots_length (f : Nat → α) (W P Q N : Nat) :
    (SeqState f W P Q N).slots.length = N := by
  simp [SeqState]

theorem SeqState_slots_get (f : Nat → α) (W P Q N : Nat) {i : Nat} (hi : i < N) :
    (SeqState f W P Q N).slots[i]? = some (seqSlot f W P Q N i) := by
  simp [SeqState, List.getElem?_ofFn, hi]

theorem freshQ_eq_SeqState (f : Nat → α) (W N : Nat) :
    freshQ α N = SeqState f W 0 0 N := by
  unfold freshQ SeqState
  congr 1
  · symm
    rw [List.eq_replicate_iff]
    refine ⟨by simp, fun s hs => ?_⟩
    rw [List.mem_ofFn] at hs
    obtain ⟨i, rfl⟩ := hs
    unfold seqSlot pcount
    have h0 : (N - 1 - i.1) / N = 0 := Nat.div_eq_of_lt (by omega)
    simp [h0]

/-! ### Basic lemmas about `comp` -/

theorem comp_eq_of_eq {i u j v w : Nat} (h : u = v) :
    comp i u j v w = decide (i < j) := by
  simp [comp, h]

theorem comp_true_iff_of_ne {i u j v w : Nat} (h : u ≠ v) :
    comp i u j v w = true ↔
      (((v + w) % 2 ^ 64 + 2 ^ 64 - u) % 2 ^ 64) % w < w / 2 := by
  simp [comp, h]

/-- When the intermediate sum does not overflow 64 bits, the wrapping
difference computed by `comp` is the exact difference. -/
theorem wrapDiff_eq (u v w : Nat) (hu : u < 2 ^ 64) (hle : u ≤ v + w)
    (hlt : v + w - u < 2 ^ 64) :
    ((v + w) % 2 ^ 64 + 2 ^ 64 - u) % 2 ^ 64 = v + w - u := by
  have h1 : (v + w) % 2 ^ 64 + 2 ^ 64 - u = (v + w) % 2 ^ 64 + (2 ^ 64 - u) := by
    omega
  rw [h1, Nat.mod_add_mod]
  have h2 : v + w + (2 ^ 64 - u) = (v + w - u) + 2 ^ 64 := by omega
  rw [h2, Nat.add_mod_right, Nat.mod_eq_of_lt hlt]

theorem comp_asym_aux {i u j v w : Nat} (hu : u < w) (hv : v < w) (huv : u < v)
    (hw : 2 * w ≤ 2 ^ 64 ∨ w = 2 ^ 64 - 1) :
    comp i u j v w = true → comp j v i u w = true → False := by
  intro h1 h2
  rw [comp_true_iff_of_ne (Nat.ne_of_lt huv)] at h1
  rw [comp_true_iff_of_ne (Nat.ne_of_lt huv).symm] at h2
  rcases hw with hw | hw
  · rw [wrapDiff_eq u v w (by omega) (by omega) (by omega)] at h1
    rw [wrapDiff_eq v u w (by omega) (by omega) (by omega)] at h2
    have d1 : v + w - u = w + (v - u) := by omega
    rw [d1, Nat.add_mod_left, Nat.mod_eq_of_lt (by omega)] at h1
    rw [Nat.mod_eq_of_lt (show u + w - v < w by omega)] at h2
    omega
  · subst hw
    have e1 : ((v + (2 ^ 64 - 1)) % 2 ^ 64 + 2 ^ 64 - u) % 2 ^ 64 = v - u - 1 := by
      omega
    have e2 : ((u + (2 ^ 64 - 1)) % 2 ^ 64 + 2 ^ 64 - v) % 2 ^ 64 =
        2 ^ 64 - 1 - (v - u) := by
      omega
    rw [e1] at h1
    rw [e2] at h2
    omega

/-! ### Step-shape lemmas for the fuelled loops -/

theorem pushSearch_succ (W fuel : Nat) (q : Queue α) (head : Nat) :
    pushSearch W (fuel + 1) q head =
      match q.slots[head]?, q.slots[prevIdx head q.slots.length]? with
      | some cur, some prv =>
        if prv.2.isSome && cur.2.isNone then some (.found head prv.1 prv.2)
        else if !comp (prevIdx head q.slots.length) prv.1 head cur.1 W &&
            prv.2.isNone && cur.2.isNone then
          some (.found head prv.1 prv.2)
        else if !comp (prevIdx head q.slots.length) prv.1 head cur.1 W &&
            prv.2.isSome && cur.2.isSome then
          some .full
        else pushSearch W fuel q ((head + 1) % q.slots.length)
      | _, _ => some .full := rfl

theorem pushGo_succ [DecidableEq α] (W fuel : Nat) (q : Queue α) (head : Nat) (x : α) :
    pushGo W (fuel + 1) q head x =
      match pushSearch W (fuel + 1) q head with
      | none => none
      | some .full => some (.err x, q)
      | some (.found h c pp) =>
        let c1 := if pp.isNone then (c + W - 1) % W else c
        let newCounter := if h = 0 then (c1 + 1) % W else c1
        match q.slots[h]? with
        | none => some (.err x, q)
        | some s =>
          if s = ((newCounter, none) : Slot α) then
            some (.ok, ⟨q.slots.set h (newCounter, some x),
              (h + 1) % q.slots.length, q.tail⟩)
          else pushGo W fuel q h x := rfl

theorem popSkip_succ (W fuel : Nat) (q : Queue α) (tail pc : Nat) (pp : Option α)
    (cc : Nat) (cp : Option α) :
    popSkip W (fuel + 1) q tail pc pp cc cp =
      if comp (prevIdx tail q.slots.length) pc tail cc W then
        match q.slots[(tail + 1) % q.slots.length]? with
        | none => some .bail
        | some cur => popSkip W fuel q ((tail + 1) % q.slots.length) cc cp cur.1 cur.2
      else some (.step tail pc pp cc cp) := rfl

theorem popGo_succ [DecidableEq α] (W fuel : Nat) (q : Queue α) :
    popGo W (fuel + 1) q =
      match q.slots[prevIdx q.tail q.slots.length]?, q.slots[q.tail]? with
      | some prv, some cur =>
        match popSkip W (fuel + 1) q q.tail prv.1 prv.2 cur.1 cur.2 with
        | none => none
        | some .bail => some (none, q)
        | some (.step t _pc pp cc cp) =>
          if pp.isNone && cp.isNone then some (none, q)
          else
            if q.slots[t]? = some ((cc, cp) : Slot α) then
              some (some cp, ⟨q.slots.set t ((cc + 1) % W, none), q.head,
                (t + 1) % q.slots.length⟩)
            else popGo W fuel q
      | _, _ => some (none, q) := rfl

/-! ### Slot evaluation on the ghost state -/

theorem seqSlot_occupied (f : Nat → α) (W N a h b t i : Nat) (hN : 0 < N)
    (hh : h < N) (ht : t < N) (hi : i < N) (qi : Nat)
    (hq : qi = b + if i < t then 1 else 0)
    (hocc : qi < a + if i < h then 1 else 0) :
    seqSlot f W (N * a + h) (N * b + t) N i = (qi % W, some (f (qi * N + i))) := by
  subst hq
  rw [seqSlot_eval f W N a h b t i hN hh ht hi, if_pos hocc]

theorem seqSlot_vacant (f : Nat → α) (W N a h b t i : Nat) (hN : 0 < N)
    (hh : h < N) (ht : t < N) (hi : i < N) (qi : Nat)
    (hq : qi = b + if i < t then 1 else 0)
    (hocc : ¬ qi < a + if i < h then 1 else 0) :
    seqSlot f W (N * a + h) (N * b + t) N i = (qi % W, none) := by
  subst hq
  rw [seqSlot_eval f W N a h b t i hN hh ht hi, if_neg hocc]

theorem prevIdx_eq {h N : Nat} (hN : 0 < N) (hh : h < N) :
    prevIdx h N = if h = 0 then N - 1 else h - 1 := by
  unfold prevIdx
  rcases Nat.eq_zero_or_pos h with rfl | hpos
  · rw [if_pos rfl]
    have h1 : 0 + N - 1 = N - 1 := by omega
    rw [h1, Nat.mod_eq_of_lt (by omega)]
  · rw [if_neg (by omega)]
    have h1 : h + N - 1 = (h - 1) + N := by omega
    rw [h1, Nat.add_mod_right, Nat.mod_eq_of_lt (by omega)]

/-- The `comp` predicate is false when the first counter is one step ahead of
the second modulo `W` (the wrapped difference is `W − 1`, outside the
half-window). -/
theorem comp_succ_mod_false (i j x W : Nat) (hW : 2 ≤ W) (hWM : 2 * W ≤ 2 ^ 64) :
    comp i ((x + 1) % W) j (x % W) W = false := by
  have hr : x % W < W := Nat.mod_lt _ (by omega)
  have hadd : (x % W + 1) % W = (x + 1) % W := Nat.mod_add_mod x W 1
  rcases Nat.lt_or_ge (x % W + 1) W with hc | hc
  · have hu2 : (x + 1) % W = x % W + 1 := by rw [← hadd, Nat.mod_eq_of_lt hc]
    rw [hu2]
    unfold comp
    rw [if_neg (by omega)]
    have e : ((x % W + W) % 2 ^ 64 + 2 ^ 64 - (x % W + 1)) % 2 ^ 64 = W - 1 := by
      rw [Nat.mod_eq_of_lt (show x % W + W < 2 ^ 64 by omega)]
      omega
    rw [e, Nat.mod_eq_of_lt (show W - 1 < W by omega)]
    simp only [decide_eq_false_iff_not]
    omega
  · have hx : x % W = W - 1 := by omega
    have hu2 : (x + 1) % W = 0 := by
      rw [← hadd, hx]
      have h1 : W - 1 + 1 = W := by omega
      rw [h1, Nat.mod_self]
    rw [hu2, hx]
    unfold comp
    rw [if_neg (by omega)]
    have e : ((W - 1 + W) % 2 ^ 64 + 2 ^ 64 - 0) % 2 ^ 64 = W - 1 + W := by
      have h2 : (W - 1 + W) % 2 ^ 64 = W - 1 + W := Nat.mod_eq_of_lt (by omega)
      rw [h2]
      omega
    rw [e]
    have e2 : (W - 1 + W) % W = W - 1 := by
      rw [Nat.add_mod_right, Nat.mod_eq_of_lt (by omega)]
    rw [e2]
    simp only [decide_eq_false_iff_not]
    omega

/-! ### The commit step of `push` on the ghost state -/

theorem seq_commit_push (f : Nat → α) (x : α) (W N a h b t : Nat)
    (hN : 0 < N) (hh : h < N) (ht : t < N)
    (hcase : (a = b ∧ t ≤ h) ∨ (a = b + 1 ∧ h < t)) :
    (⟨(SeqState f W (N * a + h) (N * b + t) N).slots.set h ((a % W, some x) : Slot α),
        (h + 1) % N, t⟩ : Queue α) =
      SeqState (Function.update f (N * a + h) x) W (N * a + h + 1) (N * b + t) N := by
  have hmodP : (N * a + h) % N = h := by
    rw [Nat.mul_add_mod]
    exact Nat.mod_eq_of_lt hh
  have hmodQ : (N * b + t) % N = t := by
    rw [Nat.mul_add_mod]
    exact Nat.mod_eq_of_lt ht
  have hs : (SeqState f W (N * a + h) (N * b + t) N).slots.set h
      ((a % W, some x) : Slot α) =
      (SeqState (Function.update f (N * a + h) x) W (N * a + h + 1) (N * b + t) N).slots := by
    apply List.ext_getElem?
    intro i
    have hlen : ((SeqState f W (N * a + h) (N * b + t) N).slots).length = N :=
      SeqState_slots_length f W _ _ N
    rcases Nat.lt_or_ge i N with hi | hi
    · by_cases hih : i = h
      · subst hih
        rw [List.getElem?_set_self (by omega), SeqState_slots_get _ _ _ _ _ hi]
        have hocc : seqSlot (Function.update f (N * a + i) x) W (N * a + i + 1)
            (N * b + t) N i =
            (a % W, some (Function.update f (N * a + i) x (a * N + i))) := by
          unfold seqSlot
          rw [pcount_succ hN hi, pcount_eq N a i i hN hi hi,
            pcount_eq N b t i hN ht hi, hmodP]
          rw [if_pos rfl, if_neg (lt_irrefl i)]
          have hq : b + (if i < t then 1 else 0) = a := by
            rcases hcase with ⟨rfl, hth⟩ | ⟨rfl, hht⟩
            · rw [if_neg (by omega)]
              omega
            · rw [if_pos (by omega)]
          rw [hq, if_pos (by omega)]
        rw [hocc]
        have hidx : a * N + i = N * a + i := by ring
        rw [hidx, Function.update_same]
      · rw [List.getElem?_set_ne (Ne.symm hih), SeqState_slots_get _ _ _ _ _ hi,
          SeqState_slots_get _ _ _ _ _ hi]
        have hsame : seqSlot (Function.update f (N * a + h) x) W (N * a + h + 1)
            (N * b + t) N i = seqSlot f W (N * a + h) (N * b + t) N i := by
          unfold seqSlot
          rw [pcount_succ hN hi, hmodP, if_neg hih, Nat.add_zero]
          split
          · next hoc =>
            have hlt : pcount (N * b + t) N i * N + i < N * a + h :=
              (lt_pcount_iff _ hN hi).mp hoc
            rw [Function.update_noteq (by omega)]
          · rfl
        rw [hsame]
    · rw [List.getElem?_eq_none (by simp [hlen]; omega),
        List.getElem?_eq_none (by rw [SeqState_slots_length]; omega)]
  have hhd : (h + 1) % N =
      (SeqState (Function.update f (N * a + h) x) W (N * a + h + 1) (N * b + t) N).head := by
    show (h + 1) % N = (N * a + h + 1) % N
    have hstep : N * a + h + 1 = N * a + (h + 1) := by omega
    rw [hstep, Nat.mul_add_mod]
  have htl : t =
      (SeqState (Function.update f (N * a + h) x) W (N * a + h + 1) (N * b + t) N).tail :=
    hmodQ.symm
  calc (⟨(SeqState f W (N * a + h) (N * b + t) N).slots.set h
          ((a % W, some x) : Slot α), (h + 1) % N, t⟩ : Queue α)
      = ⟨(SeqState (Function.update f (N * a + h) x) W (N * a + h + 1) (N * b + t) N).slots,
          (SeqState (Function.update f (N * a + h) x) W (N * a + h + 1) (N * b + t) N).head,
          (SeqState (Function.update f (N * a + h) x) W (N * a + h + 1) (N * b + t) N).tail⟩ := by
        rw [← hs, ← hhd, ← htl]
    _ = SeqState (Function.update f (N * a + h) x) W (N * a + h + 1) (N * b + t) N := rfl

/-! ### The four sequential big-step lemmas -/

/-- A completed sequential `push` on a non-full ghost state succeeds in one
round of the search and retry loops, installing the item at position `P`. -/
theorem pushF_seq [DecidableEq α] (f : Nat → α) (x : α) (W N P Q fuel : Nat)
    (hN : 0 < N) (hW : 2 ≤ W) (hWM : 2 * W ≤ 2 ^ 64)
    (hQP : Q ≤ P) (hPQ : P < Q + N) :
    pushF W (fuel + 1) (SeqState f W P Q N) x =
      some (.ok, SeqState (Function.update f P x) W (P + 1) Q N) := by
  obtain ⟨a, h, hh, hPd⟩ : ∃ a h, h < N ∧ N * a + h = P :=
    ⟨P / N, P % N, Nat.mod_lt _ hN, Nat.div_add_mod P N⟩
  obtain ⟨b, t, ht, hQd⟩ : ∃ b t, t < N ∧ N * b + t = Q :=
    ⟨Q / N, Q % N, Nat.mod_lt _ hN, Nat.div_add_mod Q N⟩
  subst hPd
  subst hQd
  have hcase : (a = b ∧ t ≤ h) ∨ (a = b + 1 ∧ h < t) := by
    rcases Nat.lt_trichotomy a b with hab | hab | hab
    · exfalso
      have hm : N * (a + 1) ≤ N * b := Nat.mul_le_mul_left N hab
      rw [Nat.mul_succ] at hm
      omega
    · subst hab
      exact Or.inl ⟨rfl, by omega⟩
    · rcases (show a = b + 1 ∨ b + 2 ≤ a by omega) with hab1 | hab2
      · subst hab1
        refine Or.inr ⟨rfl, ?_⟩
        have hm : N * (b + 1) = N * b + N := Nat.mul_succ N b
        omega
      · exfalso
        have hm : N * (b + 2) ≤ N * a := Nat.mul_le_mul_left N hab2
        have hm2 : N * (b + 2) = N * b + N + N := by ring
        omega
  have hmodP : (N * a + h) % N = h := by
    rw [Nat.mul_add_mod]
    exact Nat.mod_eq_of_lt hh
  have hmodQ : (N * b + t) % N = t := by
    rw [Nat.mul_add_mod]
    exact Nat.mod_eq_of_lt ht
  unfold pushF
  have hhead : (SeqState f W (N * a + h) (N * b + t) N).head = h := hmodP
  have htail : (SeqState f W (N * a + h) (N * b + t) N).tail = t := hmodQ
  rw [hhead]
  obtain ⟨rfl, hth⟩ | ⟨rfl, hht⟩ := hcase
  · -- same lap: a = b, t ≤ h
    have hcur : (SeqState f W (N * a + h) (N * a + t) N).slots[h]? =
        some ((a % W, none) : Slot α) :=
      by rw [SeqState_slots_get _ _ _ _ _ hh,
        seqSlot_vacant f W N a h a t h hN hh ht hh a (by split_ifs <;> omega)
          (by split_ifs <;> omega)]
    rcases Nat.eq_or_lt_of_le hth with heq | htlt
    · -- empty queue: t = h
      subst heq
      rcases Nat.eq_zero_or_pos t with rfl | hpos
      · -- h = t = 0, predecessor is slot N - 1 with equal counter
        have hpidx : prevIdx 0 N = N - 1 := by
          rw [prevIdx_eq hN hh, if_pos rfl]
        have hprv : (SeqState f W (N * a + 0) (N * a + 0) N).slots[N - 1]? =
            some ((a % W, none) : Slot α) :=
          by rw [SeqState_slots_get _ _ _ _ _ (by omega),
            seqSlot_vacant f W N a 0 a 0 (N - 1) hN hh ht (by omega) a
              (by split_ifs <;> omega) (by split_ifs <;> omega)]
        have hcompf : comp (N - 1) (a % W) 0 (a % W) W = false := by
          rw [comp_eq_of_eq rfl]
          simp
        have hsearch : pushSearch W (fuel + 1) (SeqState f W (N * a + 0) (N * a + 0) N) 0 =
            some (.found 0 (a % W) none) := by
          rw [pushSearch_succ, SeqState_slots_length, hpidx, hcur, hprv]
          dsimp only
          rw [hcompf]
          simp
        rw [pushGo_succ, hsearch]
        dsimp only
        rw [hcur]
        simp only [Option.isNone_none, if_true]
        have hNC : ((a % W + W - 1) % W + 1) % W = a % W := by
          have h1 : a % W + W - 1 = a % W + (W - 1) := by omega
          rw [h1, Nat.mod_add_mod]
          have h2 : a % W + (W - 1) + 1 = a % W + W := by omega
          rw [h2, Nat.add_mod_right]
          exact Nat.mod_eq_of_lt (Nat.mod_lt _ (by omega))
        rw [hNC, if_pos rfl, SeqState_slots_length, htail]
        rw [seq_commit_push f x W N a 0 a 0 hN hh ht (Or.inl ⟨rfl, le_refl 0⟩)]
      · -- h = t > 0, predecessor is slot t - 1, one counter ahead
        have hpidx : prevIdx t N = t - 1 := by
          rw [prevIdx_eq hN hh, if_neg (by omega)]
        have hprv : (SeqState f W (N * a + t) (N * a + t) N).slots[t - 1]? =
            some (((a + 1) % W, none) : Slot α) :=
          by rw [SeqState_slots_get _ _ _ _ _ (by omega),
            seqSlot_vacant f W N a t a t (t - 1) hN hh ht (by omega) (a + 1)
              (by split_ifs <;> omega) (by split_ifs <;> omega)]
        have hcompf : comp (t - 1) ((a + 1) % W) t (a % W) W = false :=
          comp_succ_mod_false (t - 1) t a W hW hWM
        have hsearch : pushSearch W (fuel + 1) (SeqState f W (N * a + t) (N * a + t) N) t =
            some (.found t ((a + 1) % W) none) := by
          rw [pushSearch_succ, SeqState_slots_length, hpidx, hcur, hprv]
          dsimp only
          rw [hcompf]
          simp
        rw [pushGo_succ, hsearch]
        dsimp only
        rw [hcur]
        simp only [Option.isNone_none, if_true]
        rw [if_neg (by omega : ¬ t = 0)]
        have hNC : ((a + 1) % W + W - 1) % W = a % W := by
          have h1 : (a + 1) % W + W - 1 = (a + 1) % W + (W - 1) := by omega
          rw [h1, Nat.mod_add_mod]
          have h2 : a + 1 + (W - 1) = a + W := by omega
          rw [h2, Nat.add_mod_right]
        rw [hNC, if_pos rfl, SeqState_slots_length, htail]
        rw [seq_commit_push f x W N a t a t hN hh ht (Or.inl ⟨rfl, le_refl t⟩)]
    · -- nonempty same-lap queue: t < h, so h ≥ 1; predecessor occupied
      have hpidx : prevIdx h N = h - 1 := by
        rw [prevIdx_eq hN hh, if_neg (by omega)]
      have hprv : (SeqState f W (N * a + h) (N * a + t) N).slots[h - 1]? =
          some ((a % W, some (f (a * N + (h - 1)))) : Slot α) :=
        by rw [SeqState_slots_get _ _ _ _ _ (by omega),
          seqSlot_occupied f W N a h a t (h - 1) hN hh ht (by omega) a
            (by split_ifs <;> omega) (by split_ifs <;> omega)]
      have hsearch : pushSearch W (fuel + 1) (SeqState f W (N * a + h) (N * a + t) N) h =
          some (.found h (a % W) (some (f (a * N + (h - 1))))) := by
        rw [pushSearch_succ, SeqState_slots_length, hpidx, hcur, hprv]
        dsimp only
        simp
      rw [pushGo_succ, hsearch]
      dsimp only
      rw [hcur]
      simp only [Option.isNone_some, Bool.false_eq_true, if_false]
      rw [if_neg (by omega : ¬ h = 0), if_pos rfl, SeqState_slots_length, htail]
      rw [seq_commit_push f x W N a h a t hN hh ht (Or.inl ⟨rfl, by omega⟩)]
  · -- next lap: a = b + 1, h < t; queue nonempty
    have hcur : (SeqState f W (N * (b + 1) + h) (N * b + t) N).slots[h]? =
        some (((b + 1) % W, none) : Slot α) :=
      by rw [SeqState_slots_get _ _ _ _ _ hh,
        seqSlot_vacant f W N (b + 1) h b t h hN hh ht hh (b + 1)
          (by split_ifs <;> omega) (by split_ifs <;> omega)]
    rcases Nat.eq_zero_or_pos h with rfl | hpos
    · -- h = 0: predecessor is the occupied slot N - 1 of the previous lap
      have hpidx : prevIdx 0 N = N - 1 := by
        rw [prevIdx_eq hN (by omega), if_pos rfl]
      have hprv : (SeqState f W (N * (b + 1) + 0) (N * b + t) N).slots[N - 1]? =
          some ((b % W, some (f (b * N + (N - 1)))) : Slot α) :=
        by rw [SeqState_slots_get _ _ _ _ _ (by omega),
          seqSlot_occupied f W N (b + 1) 0 b t (N - 1) hN (by omega) ht (by omega) b
            (by split_ifs <;> omega) (by split_ifs <;> omega)]
      have hsearch : pushSearch W (fuel + 1)
          (SeqState f W (N * (b + 1) + 0) (N * b + t) N) 0 =
          some (.found 0 (b % W) (some (f (b * N + (N - 1))))) := by
        rw [pushSearch_succ, SeqState_slots_length, hpidx, hcur, hprv]
        dsimp only
        simp
      rw [pushGo_succ, hsearch]
      dsimp only
      rw [hcur]
      simp only [Option.isNone_some, Bool.false_eq_true, if_false, if_true]
      have hNC : (b % W + 1) % W = (b + 1) % W := Nat.mod_add_mod b W 1
      rw [hNC, if_pos rfl, SeqState_slots_length, htail]
      rw [seq_commit_push f x W N (b + 1) 0 b t hN (by omega) ht (Or.inr ⟨rfl, by omega⟩)]
    · -- h > 0: predecessor is the occupied slot h - 1 of the current lap
      have hpidx : prevIdx h N = h - 1 := by
        rw [prevIdx_eq hN hh, if_neg (by omega)]
      have hprv : (SeqState f W (N * (b + 1) + h) (N * b + t) N).slots[h - 1]? =
          some (((b + 1) % W, some (f ((b + 1) * N + (h - 1)))) : Slot α) :=
        by rw [SeqState_slots_get _ _ _ _ _ (by omega),
          seqSlot_occupied f W N (b + 1) h b t (h - 1) hN hh ht (by omega) (b + 1)
            (by split_ifs <;> omega) (by split_ifs <;> omega)]
      have hsearch : pushSearch W (fuel + 1)
          (SeqState f W (N * (b + 1) + h) (N * b + t) N) h =
          some (.found h ((b + 1) % W) (some (f ((b + 1) * N + (h - 1))))) := by
        rw [pushSearch_succ, SeqState_slots_length, hpidx, hcur, hprv]
        dsimp only
        simp
      rw [pushGo_succ, hsearch]
      dsimp only
      rw [hcur]
      simp only [Option.isNone_some, Bool.false_eq_true, if_false]
      rw [if_neg (by omega : ¬ h = 0), if_pos rfl, SeqState_slots_length, htail]
      rw [seq_commit_push f x W N (b + 1) h b t hN hh ht (Or.inr ⟨rfl, by omega⟩)]

/-- A completed sequential `push` on a full ghost state reports full in the
first round of the search, returning the item and leaving the state
untouched. -/
theorem pushF_seq_full [DecidableEq α] (f : Nat → α) (x : α) (W N Q fuel : Nat)
    (hN : 0 < N) (hW : 2 ≤ W) (hWM : 2 * W ≤ 2 ^ 64) :
    pushF W (fuel + 1) (SeqState f W (Q + N) Q N) x =
      some (.err x, SeqState f W (Q + N) Q N) := by
  obtain ⟨b, t, ht, hQd⟩ : ∃ b t, t < N ∧ N * b + t = Q :=
    ⟨Q / N, Q % N, Nat.mod_lt _ hN, Nat.div_add_mod Q N⟩
  subst hQd
  have hPd : N * b + t + N = N * (b + 1) + t := by ring
  rw [hPd]
  have hmodP : (N * (b + 1) + t) % N = t := by
    rw [Nat.mul_add_mod]
    exact Nat.mod_eq_of_lt ht
  unfold pushF
  have hhead : (SeqState f W (N * (b + 1) + t) (N * b + t) N).head = t := hmodP
  rw [hhead]
  have hcur : (SeqState f W (N * (b + 1) + t) (N * b + t) N).slots[t]? =
      some ((b % W, some (f (b * N + t))) : Slot α) :=
    by rw [SeqState_slots_get _ _ _ _ _ ht,
      seqSlot_occupied f W N (b + 1) t b t t hN ht ht ht b
        (by split_ifs <;> omega) (by split_ifs <;> omega)]
  rcases Nat.eq_zero_or_pos t with rfl | hpos
  · -- t = 0: predecessor slot N - 1 occupied with the same counter b
    have hpidx : prevIdx 0 N = N - 1 := by
      rw [prevIdx_eq hN (by omega), if_pos rfl]
    have hprv : (SeqState f W (N * (b + 1) + 0) (N * b + 0) N).slots[N - 1]? =
        some ((b % W, some (f (b * N + (N - 1)))) : Slot α) :=
      by rw [SeqState_slots_get _ _ _ _ _ (by omega),
        seqSlot_occupied f W N (b + 1) 0 b 0 (N - 1) hN (by omega) ht (by omega) b
          (by split_ifs <;> omega) (by split_ifs <;> omega)]
    have hcompf : comp (N - 1) (b % W) 0 (b % W) W = false := by
      rw [comp_eq_of_eq rfl]
      simp
    have hsearch : pushSearch W (fuel + 1)
        (SeqState f W (N * (b + 1) + 0) (N * b + 0) N) 0 = some .full := by
      rw [pushSearch_succ, SeqState_slots_length, hpidx, hcur, hprv]
      dsimp only
      rw [hcompf]
      simp
    rw [pushGo_succ, hsearch]
  · -- t > 0: predecessor slot t - 1 occupied, one counter ahead
    have hpidx : prevIdx t N = t - 1 := by
      rw [prevIdx_eq hN ht, if_neg (by omega)]
    have hprv : (SeqState f W (N * (b + 1) + t) (N * b + t) N).slots[t - 1]? =
        some (((b + 1) % W, some (f ((b + 1) * N + (t - 1)))) : Slot α) :=
      by rw [SeqState_slots_get _ _ _ _ _ (by omega),
        seqSlot_occupied f W N (b + 1) t b t (t - 1) hN ht ht (by omega) (b + 1)
          (by split_ifs <;> omega) (by split_ifs <;> omega)]
    have hcompf : comp (t - 1) ((b + 1) % W) t (b % W) W = false :=
      comp_succ_mod_false (t - 1) t b W hW hWM
    have hsearch : pushSearch W (fuel + 1)
        (SeqState f W (N * (b + 1) + t) (N * b + t) N) t = some .full := by
      rw [pushSearch_succ, SeqState_slots_length, hpidx, hcur, hprv]
      dsimp only
      rw [hcompf]
      simp
    rw [pushGo_succ, hsearch]

/-! ### The commit step of `pop` on the ghost state -/

theorem seq_commit_pop (f : Nat → α) (W N a h b t : Nat)
    (hN : 0 < N) (hh : h < N) (ht : t < N)
    (hcase : (a = b ∧ t < h) ∨ (a = b + 1 ∧ h ≤ t)) :
    (⟨(SeqState f W (N * a + h) (N * b + t) N).slots.set t
        (((b + 1) % W, none) : Slot α), h, (t + 1) % N⟩ : Queue α) =
      SeqState f W (N * a + h) (N * b + t + 1) N := by
  have hmodP : (N * a + h) % N = h := by
    rw [Nat.mul_add_mod]
    exact Nat.mod_eq_of_lt hh
  have hmodQ : (N * b + t) % N = t := by
    rw [Nat.mul_add_mod]
    exact Nat.mod_eq_of_lt ht
  have hs : (SeqState f W (N * a + h) (N * b + t) N).slots.set t
      (((b + 1) % W, none) : Slot α) =
      (SeqState f W (N * a + h) (N * b + t + 1) N).slots := by
    apply List.ext_getElem?
    intro i
    have hlen : ((SeqState f W (N * a + h) (N * b + t) N).slots).length = N :=
      SeqState_slots_length f W _ _ N
    rcases Nat.lt_or_ge i N with hi | hi
    · by_cases hit : i = t
      · subst hit
        rw [List.getElem?_set_self (by omega), SeqState_slots_get _ _ _ _ _ hi]
        have hvac : seqSlot f W (N * a + h) (N * b + i + 1) N i =
            (((b + 1) % W, none) : Slot α) := by
          unfold seqSlot
          rw [pcount_succ hN hi, pcount_eq N a h i hN hh hi,
            pcount_eq N b i i hN hi hi, hmodQ]
          rw [if_pos rfl, if_neg (lt_irrefl i)]
          rw [if_neg (show ¬ (b + 0 + 1 < a + if i < h then 1 else 0) by
            split_ifs <;> omega)]
        rw [hvac]
      · rw [List.getElem?_set_ne (Ne.symm hit), SeqState_slots_get _ _ _ _ _ hi,
          SeqState_slots_get _ _ _ _ _ hi]
        have hsame : seqSlot f W (N * a + h) (N * b + t + 1) N i =
            seqSlot f W (N * a + h) (N * b + t) N i := by
          unfold seqSlot
          rw [pcount_succ hN hi, hmodQ, if_neg hit, Nat.add_zero]
        rw [hsame]
    · rw [List.getElem?_eq_none (by simp [hlen]; omega),
        List.getElem?_eq_none (by rw [SeqState_slots_length]; omega)]
  have hhd : h = (SeqState f W (N * a + h) (N * b + t + 1) N).head := hmodP.symm
  have htl : (t + 1) % N = (SeqState f W (N * a + h) (N * b + t + 1) N).tail := by
    show (t + 1) % N = (N * b + t + 1) % N
    have hstep : N * b + t + 1 = N * b + (t + 1) := by omega
    rw [hstep, Nat.mul_add_mod]
  calc (⟨(SeqState f W (N * a + h) (N * b + t) N).slots.set t
          (((b + 1) % W, none) : Slot α), h, (t + 1) % N⟩ : Queue α)
      = ⟨(SeqState f W (N * a + h) (N * b + t + 1) N).slots,
          (SeqState f W (N * a + h) (N * b + t + 1) N).head,
          (SeqState f W (N * a + h) (N * b + t + 1) N).tail⟩ := by
        rw [← hs, ← hhd, ← htl]
    _ = SeqState f W (N * a + h) (N * b + t + 1) N := rfl

/-- A completed sequential `pop` on a non-empty ghost state runs the skip
loop zero times and removes the oldest item, which sits at the tail slot. -/
theorem popF_seq [DecidableEq α] (f : Nat → α) (W N P Q fuel : Nat)
    (hN : 0 < N) (hW : 2 ≤ W) (hWM : 2 * W ≤ 2 ^ 64)
    (hQP : Q < P) (hPQ : P ≤ Q + N) :
    popF W (fuel + 1) (SeqState f W P Q N) =
      some (some (some (f Q)), SeqState f W P (Q + 1) N) := by
  obtain ⟨a, h, hh, hPd⟩ : ∃ a h, h < N ∧ N * a + h = P :=
    ⟨P / N, P % N, Nat.mod_lt _ hN, Nat.div_add_mod P N⟩
  obtain ⟨b, t, ht, hQd⟩ : ∃ b t, t < N ∧ N * b + t = Q :=
    ⟨Q / N, Q % N, Nat.mod_lt _ hN, Nat.div_add_mod Q N⟩
  subst hPd
  subst hQd
  have hcase : (a = b ∧ t < h) ∨ (a = b + 1 ∧ h ≤ t) := by
    rcases Nat.lt_trichotomy a b with hab | hab | hab
    · exfalso
      have hm : N * (a + 1) ≤ N * b := Nat.mul_le_mul_left N hab
      rw [Nat.mul_succ] at hm
      omega
    · subst hab
      exact Or.inl ⟨rfl, by omega⟩
    · rcases (show a = b + 1 ∨ b + 2 ≤ a by omega) with hab1 | hab2
      · subst hab1
        refine Or.inr ⟨rfl, ?_⟩
        have hm : N * (b + 1) = N * b + N := Nat.mul_succ N b
        omega
      · exfalso
        have hm : N * (b + 2) ≤ N * a := Nat.mul_le_mul_left N hab2
        have hm2 : N * (b + 2) = N * b + N + N := by ring
        omega
  have hmodP : (N * a + h) % N = h := by
    rw [Nat.mul_add_mod]
    exact Nat.mod_eq_of_lt hh
  have hmodQ : (N * b + t) % N = t := by
    rw [Nat.mul_add_mod]
    exact Nat.mod_eq_of_lt ht
  unfold popF
  have hheadq : (SeqState f W (N * a + h) (N * b + t) N).head = h := hmodP
  have htailq : (SeqState f W (N * a + h) (N * b + t) N).tail = t := hmodQ
  have hcur : (SeqState f W (N * a + h) (N * b + t) N).slots[t]? =
      some ((b % W, some (f (b * N + t))) : Slot α) :=
    by rw [SeqState_slots_get _ _ _ _ _ ht,
      seqSlot_occupied f W N a h b t t hN hh ht ht b
        (by split_ifs <;> omega) (by split_ifs <;> omega)]
  have hbt : b * N + t = N * b + t := by ring
  rcases Nat.eq_zero_or_pos t with rfl | hpos
  · -- t = 0: predecessor is slot N - 1, counter b modulo W in all cases
    have hpidx : prevIdx 0 N = N - 1 := by
      rw [prevIdx_eq hN (by omega), if_pos rfl]
    have hcompf : comp (N - 1) (b % W) 0 (b % W) W = false := by
      rw [comp_eq_of_eq rfl]
      simp
    rcases hcase with ⟨rfl, hth⟩ | ⟨rfl, hht⟩
    · -- same lap: slot N - 1 vacant
      have hprv : (SeqState f W (N * a + h) (N * a + 0) N).slots[N - 1]? =
          some ((a % W, none) : Slot α) :=
        by rw [SeqState_slots_get _ _ _ _ _ (by omega),
          seqSlot_vacant f W N a h a 0 (N - 1) hN hh ht (by omega) a
            (by split_ifs <;> omega) (by split_ifs <;> omega)]
      have hskip : popSkip W (fuel + 1) (SeqState f W (N * a + h) (N * a + 0) N) 0
          (a % W) none (a % W) (some (f (a * N + 0))) =
          some (.step 0 (a % W) none (a % W) (some (f (a * N + 0)))) := by
        rw [popSkip_succ, SeqState_slots_length, hpidx, hcompf]
        simp
      rw [popGo_succ, SeqState_slots_length, htailq, hpidx, hprv, hcur]
      dsimp only
      rw [hskip]
      dsimp only
      simp only [Option.isNone_some, Bool.and_false, Bool.false_eq_true, if_false]
      rw [hcur, if_pos rfl]
      have hNC : (a % W + 1) % W = (a + 1) % W := Nat.mod_add_mod a W 1
      rw [hNC, hheadq, hbt]
      rw [seq_commit_pop f W N a h a 0 hN hh ht (Or.inl ⟨rfl, by omega⟩)]
    · -- next lap: slot N - 1 occupied with counter b modulo W
      have hprv : (SeqState f W (N * (b + 1) + h) (N * b + 0) N).slots[N - 1]? =
          some ((b % W, some (f (b * N + (N - 1)))) : Slot α) :=
        by rw [SeqState_slots_get _ _ _ _ _ (by omega),
          seqSlot_occupied f W N (b + 1) h b 0 (N - 1) hN hh ht (by omega) b
            (by split_ifs <;> omega) (by split_ifs <;> omega)]
      have hskip : popSkip W (fuel + 1) (SeqState f W (N * (b + 1) + h) (N * b + 0) N) 0
          (b % W) (some (f (b * N + (N - 1)))) (b % W) (some (f (b * N + 0))) =
          some (.step 0 (b % W) (some (f (b * N + (N - 1)))) (b % W)
            (some (f (b * N + 0)))) := by
        rw [popSkip_succ, SeqState_slots_length, hpidx, hcompf]
        simp
      rw [popGo_succ, SeqState_slots_length, htailq, hpidx, hprv, hcur]
      dsimp only
      rw [hskip]
      dsimp only
      simp only [Option.isNone_some, Bool.and_false, Bool.false_and, Bool.false_eq_true,
        if_false]
      rw [hcur, if_pos rfl]
      have hNC : (b % W + 1) % W = (b + 1) % W := Nat.mod_add_mod b W 1
      rw [hNC, hheadq, hbt]
      rw [seq_commit_pop f W N (b + 1) h b 0 hN hh ht (Or.inr ⟨rfl, by omega⟩)]
  · -- t > 0: predecessor is slot t - 1 with counter b + 1 modulo W
    have hpidx : prevIdx t N = t - 1 := by
      rw [prevIdx_eq hN ht, if_neg (by omega)]
    have hcompf : comp (t - 1) ((b + 1) % W) t (b % W) W = false :=
      comp_succ_mod_false (t - 1) t b W hW hWM
    by_cases hocc : a = b + 1 ∧ h = t
    · -- full wrap boundary: slot t - 1 occupied
      obtain ⟨rfl, rfl⟩ := hocc
      have hprv : (SeqState f W (N * (b + 1) + h) (N * b + h) N).slots[h - 1]? =
          some (((b + 1) % W, some (f ((b + 1) * N + (h - 1)))) : Slot α) :=
        by rw [SeqState_slots_get _ _ _ _ _ (by omega),
          seqSlot_occupied f W N (b + 1) h b h (h - 1) hN hh ht (by omega) (b + 1)
            (by split_ifs <;> omega) (by split_ifs <;> omega)]
      have hskip : popSkip W (fuel + 1) (SeqState f W (N * (b + 1) + h) (N * b + h) N) h
          ((b + 1) % W) (some (f ((b + 1) * N + (h - 1)))) (b % W)
          (some (f (b * N + h))) =
          some (.step h ((b + 1) % W) (some (f ((b + 1) * N + (h - 1)))) (b % W)
            (some (f (b * N + h)))) := by
        rw [popSkip_succ, SeqState_slots_length, hpidx, hcompf]
        simp
      rw [popGo_succ, SeqState_slots_length, htailq, hpidx, hprv, hcur]
      dsimp only
      rw [hskip]
      dsimp only
      simp only [Option.isNone_some, Bool.and_false, Bool.false_and, Bool.false_eq_true,
        if_false]
      rw [hcur, if_pos rfl]
      have hNC : (b % W + 1) % W = (b + 1) % W := Nat.mod_add_mod b W 1
      rw [hNC, hheadq, hbt]
      rw [seq_commit_pop f W N (b + 1) h b h hN hh ht (Or.inr ⟨rfl, by omega⟩)]
    · -- otherwise slot t - 1 is already empty
      have hvacc : ¬ (b + 1 < a + if t - 1 < h then 1 else 0) := by
        rcases hcase with ⟨rfl, hth⟩ | ⟨rfl, hht⟩
        · split_ifs <;> omega
        · have hne : ¬ h = t := fun hc => hocc ⟨rfl, hc⟩
          split_ifs <;> omega
      have hprv : (SeqState f W (N * a + h) (N * b + t) N).slots[t - 1]? =
          some (((b + 1) % W, none) : Slot α) :=
        by rw [SeqState_slots_get _ _ _ _ _ (by omega),
          seqSlot_vacant f W N a h b t (t - 1) hN hh ht (by omega) (b + 1)
            (by split_ifs <;> omega) hvacc]
      have hskip : popSkip W (fuel + 1) (SeqState f W (N * a + h) (N * b + t) N) t
          ((b + 1) % W) none (b % W) (some (f (b * N + t))) =
          some (.step t ((b + 1) % W) none (b % W) (some (f (b * N + t)))) := by
        rw [popSkip_succ, SeqState_slots_length, hpidx, hcompf]
        simp
      rw [popGo_succ, SeqState_slots_length, htailq, hpidx, hprv, hcur]
      dsimp only
      rw [hskip]
      dsimp only
      simp only [Option.isNone_some, Bool.and_false, Bool.false_eq_true, if_false]
      rw [hcur, if_pos rfl]
      have hNC : (b % W + 1) % W = (b + 1) % W := Nat.mod_add_mod b W 1
      rw [hNC, hheadq, hbt]
      rw [seq_commit_pop f W N a h b t hN hh ht hcase]

/-- A completed sequential `pop` on an empty ghost state returns `None`
without any CAS: the state is unchanged. -/
theorem popF_seq_empty [DecidableEq α] (f : Nat → α) (W N Q fuel : Nat)
    (hN : 0 < N) (hW : 2 ≤ W) (hWM : 2 * W ≤ 2 ^ 64) :
    popF W (fuel + 1) (SeqState f W Q Q N) = some (none, SeqState f W Q Q N) := by
  obtain ⟨b, t, ht, hQd⟩ : ∃ b t, t < N ∧ N * b + t = Q :=
    ⟨Q / N, Q % N, Nat.mod_lt _ hN, Nat.div_add_mod Q N⟩
  subst hQd
  have hmodQ : (N * b + t) % N = t := by
    rw [Nat.mul_add_mod]
    exact Nat.mod_eq_of_lt ht
  unfold popF
  have htailq : (SeqState f W (N * b + t) (N * b + t) N).tail = t := hmodQ
  have hcur : (SeqState f W (N * b + t) (N * b + t) N).slots[t]? =
      some ((b % W, none) : Slot α) :=
    by rw [SeqState_slots_get _ _ _ _ _ ht,
      seqSlot_vacant f W N b t b t t hN ht ht ht b
        (by split_ifs <;> omega) (by split_ifs <;> omega)]
  rcases Nat.eq_zero_or_pos t with rfl | hpos
  · have hpidx : prevIdx 0 N = N - 1 := by
      rw [prevIdx_eq hN (by omega), if_pos rfl]
    have hcompf : comp (N - 1) (b % W) 0 (b % W) W = false := by
      rw [comp_eq_of_eq rfl]
      simp
    have hprv : (SeqState f W (N * b + 0) (N * b + 0) N).slots[N - 1]? =
        some ((b % W, none) : Slot α) :=
      by rw [SeqState_slots_get _ _ _ _ _ (by omega),
        seqSlot_vacant f W N b 0 b 0 (N - 1) hN ht ht (by omega) b
          (by split_ifs <;> omega) (by split_ifs <;> omega)]
    have hskip : popSkip W (fuel + 1) (SeqState f W (N * b + 0) (N * b + 0) N) 0
        (b % W) none (b % W) none =
        some (.step 0 (b % W) none (b % W) none) := by
      rw [popSkip_succ, SeqState_slots_length, hpidx, hcompf]
      simp
    rw [popGo_succ, SeqState_slots_length, htailq, hpidx, hprv, hcur]
    dsimp only
    rw [hskip]
    dsimp only
    simp
  · have hpidx : prevIdx t N = t - 1 := by
      rw [prevIdx_eq hN ht, if_neg (by omega)]
    have hcompf : comp (t - 1) ((b + 1) % W) t (b % W) W = false :=
      comp_succ_mod_false (t - 1) t b W hW hWM
    have hprv : (SeqState f W (N * b + t) (N * b + t) N).slots[t - 1]? =
        some (((b + 1) % W, none) : Slot α) :=
      by rw [SeqState_slots_get _ _ _ _ _ (by omega),
        seqSlot_vacant f W N b t b t (t - 1) hN ht ht (by omega) (b + 1)
          (by split_ifs <;> omega) (by split_ifs <;> omega)]
    have hskip : popSkip W (fuel + 1) (SeqState f W (N * b + t) (N * b + t) N) t
        ((b + 1) % W) none (b % W) none =
        some (.step t ((b + 1) % W) none (b % W) none) := by
      rw [popSkip_succ, SeqState_slots_length, hpidx, hcompf]
      simp
    rw [popGo_succ, SeqState_slots_length, htailq, hpidx, hprv, hcur]
    dsimp only
    rw [hskip]
    dsimp only
    simp

/-! ### Derived facts about the ghost state -/

theorem lap_split (N a b h t : Nat) (hN : 0 < N) (hh : h < N) (ht : t < N)
    (hle : N * b + t ≤ N * a + h) (hlt : N * a + h < N * b + t + N) :
    (a = b ∧ t ≤ h) ∨ (a = b + 1 ∧ h < t) := by
  rcases Nat.lt_trichotomy a b with hab | hab | hab
  · exfalso
    have hm : N * (a + 1) ≤ N * b := Nat.mul_le_mul_left N hab
    rw [Nat.mul_succ] at hm
    omega
  · subst hab
    exact Or.inl ⟨rfl, by omega⟩
  · rcases (show a = b + 1 ∨ b + 2 ≤ a by omega) with hab1 | hab2
    · subst hab1
      refine Or.inr ⟨rfl, ?_⟩
      have hm : N * (b + 1) = N * b + N := Nat.mul_succ N b
      omega
    · exfalso
      have hm : N * (b + 2) ≤ N * a := Nat.mul_le_mul_left N hab2
      have hm2 : N * (b + 2) = N * b + N + N := by ring
      omega

theorem lap_split_pop (N a b h t : Nat) (hN : 0 < N) (hh : h < N) (ht : t < N)
    (hlt : N * b + t < N * a + h) (hle : N * a + h ≤ N * b + t + N) :
    (a = b ∧ t < h) ∨ (a = b + 1 ∧ h ≤ t) := by
  rcases Nat.lt_trichotomy a b with hab | hab | hab
  · exfalso
    have hm : N * (a + 1) ≤ N * b := Nat.mul_le_mul_left N hab
    rw [Nat.mul_succ] at hm
    omega
  · subst hab
    exact Or.inl ⟨rfl, by omega⟩
  · rcases (show a = b + 1 ∨ b + 2 ≤ a by omega) with hab1 | hab2
    · subst hab1
      refine Or.inr ⟨rfl, ?_⟩
      have hm : N * (b + 1) = N * b + N := Nat.mul_succ N b
      omega
    · exfalso
      have hm : N * (b + 2) ≤ N * a := Nat.mul_le_mul_left N hab2
      have hm2 : N * (b + 2) = N * b + N + N := by ring
      omega

/-- On a non-full ghost state, the slot at the head index is vacant. -/
theorem seq_head_vacant (f : Nat → α) (W N P Q : Nat) (hN : 0 < N)
    (hQP : Q ≤ P) (hPQ : P < Q + N) :
    (SeqState f W P Q N).slots[P % N]? = some (((P / N) % W, none) : Slot α) := by
  obtain ⟨a, h, hh, hPd⟩ : ∃ a h, h < N ∧ N * a + h = P :=
    ⟨P / N, P % N, Nat.mod_lt _ hN, Nat.div_add_mod P N⟩
  obtain ⟨b, t, ht, hQd⟩ : ∃ b t, t < N ∧ N * b + t = Q :=
    ⟨Q / N, Q % N, Nat.mod_lt _ hN, Nat.div_add_mod Q N⟩
  subst hPd
  subst hQd
  have hc := lap_split N a b h t hN hh ht hQP hPQ
  have hmod : (N * a + h) % N = h := by
    rw [Nat.mul_add_mod]
    exact Nat.mod_eq_of_lt hh
  have hdiv : (N * a + h) / N = a := by
    rw [Nat.mul_add_div hN, Nat.div_eq_of_lt hh]
    omega
  rw [hmod, hdiv, SeqState_slots_get _ _ _ _ _ hh,
    seqSlot_vacant f W N a h b t h hN hh ht hh a
      (by rcases hc with ⟨rfl, h1⟩ | ⟨rfl, h1⟩ <;> split_ifs <;> omega)
      (by rcases hc with ⟨rfl, h1⟩ | ⟨rfl, h1⟩ <;> split_ifs <;> omega)]

/-- On a non-empty ghost state, the slot at the tail index holds the oldest
item `f Q`. -/
theorem seq_tail_occupied (f : Nat → α) (W N P Q : Nat) (hN : 0 < N)
    (hQP : Q < P) (hPQ : P ≤ Q + N) :
    (SeqState f W P Q N).slots[Q % N]? =
      some (((Q / N) % W, some (f Q)) : Slot α) := by
  obtain ⟨a, h, hh, hPd⟩ : ∃ a h, h < N ∧ N * a + h = P :=
    ⟨P / N, P % N, Nat.mod_lt _ hN, Nat.div_add_mod P N⟩
  obtain ⟨b, t, ht, hQd⟩ : ∃ b t, t < N ∧ N * b + t = Q :=
    ⟨Q / N, Q % N, Nat.mod_lt _ hN, Nat.div_add_mod Q N⟩
  subst hPd
  subst hQd
  have hc := lap_split_pop N a b h t hN hh ht hQP hPQ
  have hmod : (N * b + t) % N = t := by
    rw [Nat.mul_add_mod]
    exact Nat.mod_eq_of_lt ht
  have hdiv : (N * b + t) / N = b := by
    rw [Nat.mul_add_div hN, Nat.div_eq_of_lt ht]
    omega
  rw [hmod, hdiv, SeqState_slots_get _ _ _ _ _ ht,
    seqSlot_occupied f W N a h b t t hN hh ht ht b
      (by split_ifs <;> omega)
      (by rcases hc with ⟨rfl, h1⟩ | ⟨rfl, h1⟩ <;> split_ifs <;> omega)]
  rw [show b * N + t = N * b + t from by ring]

/-- Every sequentially reachable state is a ghost state with at most `N`
outstanding items. -/
theorem Reach_repr [DecidableEq α] [Inhabited α] {W N : Nat} {q : Queue α}
    (hN : 0 < N) (hW : 2 ≤ W) (hWM : 2 * W ≤ 2 ^ 64) (hr : Reach W N q) :
    ∃ (f : Nat → α) (P Q : Nat), Q ≤ P ∧ P ≤ Q + N ∧ q = SeqState f W P Q N := by
  induction hr with
  | init =>
    exact ⟨fun _ => default, 0, 0, Nat.le_refl 0, by omega, freshQ_eq_SeqState _ W N⟩
  | push q0 q1 r x fuel hq heq ih =>
    obtain ⟨f, P, Q, hQP, hPQ, rfl⟩ := ih
    cases fuel with
    | zero => exact Option.noConfusion heq
    | succ fl =>
      rcases Nat.lt_or_ge P (Q + N) with hlt | hge
      · rw [pushF_seq f x W N P Q fl hN hW hWM hQP hlt] at heq
        simp only [Option.some.injEq, Prod.mk.injEq] at heq
        exact ⟨Function.update f P x, P + 1, Q, by omega, by omega, heq.2.symm⟩
      · obtain rfl : P = Q + N := by omega
        rw [pushF_seq_full f x W N Q fl hN hW hWM] at heq
        simp only [Option.some.injEq, Prod.mk.injEq] at heq
        exact ⟨f, Q + N, Q, by omega, by omega, heq.2.symm⟩
  | pop q0 q1 r fuel hq heq ih =>
    obtain ⟨f, P, Q, hQP, hPQ, rfl⟩ := ih
    cases fuel with
    | zero => exact Option.noConfusion heq
    | succ fl =>
      rcases Nat.eq_or_lt_of_le hQP with rfl | hlt
      · rw [popF_seq_empty f W N Q fl hN hW hWM] at heq
        simp only [Option.some.injEq, Prod.mk.injEq] at heq
        exact ⟨f, Q, Q, by omega, by omega, heq.2.symm⟩
      · rw [popF_seq f W N P Q fl hN hW hWM hlt hPQ] at heq
        simp only [Option.some.injEq, Prod.mk.injEq] at heq
        exact ⟨f, P, Q + 1, by omega, by omega, heq.2.symm⟩

/-! ### Counter-range preservation -/

theorem pushGo_counters [DecidableEq α] (W : Nat) (hW : 1 ≤ W) :
    ∀ (fuel : Nat) (q : Queue α) (head : Nat) (x : α) (r : PushResult α) (qq : Queue α),
      CountersLT q W → pushGo W fuel q head x = some (r, qq) → CountersLT qq W := by
  intro fuel
  induction fuel with
  | zero =>
    intro q head x r qq hc heq
    exact Option.noConfusion heq
  | succ n ih =>
    intro q head x r qq hc heq
    rw [pushGo_succ] at heq
    rcases hs : pushSearch W (n + 1) q head with _ | sr
    · rw [hs] at heq
      exact Option.noConfusion heq
    · rcases sr with _ | ⟨h, c, pp⟩
      · rw [hs] at heq
        dsimp only at heq
        simp only [Option.some.injEq, Prod.mk.injEq] at heq
        rw [← heq.2]
        exact hc
      · rw [hs] at heq
        dsimp only at heq
        rcases hg : q.slots[h]? with _ | s
        · rw [hg] at heq
          dsimp only at heq
          simp only [Option.some.injEq, Prod.mk.injEq] at heq
          rw [← heq.2]
          exact hc
        · rw [hg] at heq
          dsimp only at heq
          rcases pp with _ | y
          · simp only [Option.isNone_none, if_true] at heq
            by_cases hh0 : h = 0
            · rw [if_pos hh0] at heq
              split at heq
              · simp only [Option.some.injEq, Prod.mk.injEq] at heq
                rw [← heq.2]
                intro s2 hs2
                rcases List.mem_or_eq_of_mem_set hs2 with hmem | rfl
                · exact hc _ hmem
                · simpa using Nat.mod_lt ((c + W - 1) % W + 1) (show 0 < W by omega)
              · exact ih q h x r qq hc heq
            · rw [if_neg hh0] at heq
              split at heq
              · simp only [Option.some.injEq, Prod.mk.injEq] at heq
                rw [← heq.2]
                intro s2 hs2
                rcases List.mem_or_eq_of_mem_set hs2 with hmem | rfl
                · exact hc _ hmem
                · simpa using Nat.mod_lt (c + W - 1) (show 0 < W by omega)
              · exact ih q h x r qq hc heq
          · simp only [Option.isNone_some, Bool.false_eq_true, if_false] at heq
            by_cases hh0 : h = 0
            · rw [if_pos hh0] at heq
              split at heq
              · simp only [Option.some.injEq, Prod.mk.injEq] at heq
                rw [← heq.2]
                intro s2 hs2
                rcases List.mem_or_eq_of_mem_set hs2 with hmem | rfl
                · exact hc _ hmem
                · simpa using Nat.mod_lt (c + 1) (show 0 < W by omega)
              · exact ih q h x r qq hc heq
            · rw [if_neg hh0] at heq
              split at heq
              · next hcond =>
                simp only [Option.some.injEq, Prod.mk.injEq] at heq
                rw [← heq.2]
                intro s2 hs2
                rcases List.mem_or_eq_of_mem_set hs2 with hmem | rfl
                · exact hc _ hmem
                · have h1 : s.1 < W := hc s (List.getElem?_mem hg)
                  rw [hcond] at h1
                  simpa using h1
              · exact ih q h x r qq hc heq

theorem popGo_counters [DecidableEq α] (W : Nat) (hW : 1 ≤ W) :
    ∀ (fuel : Nat) (q : Queue α) (r : Option (Option α)) (qq : Queue α),
      CountersLT q W → popGo W fuel q = some (r, qq) → CountersLT qq W := by
  intro fuel
  induction fuel with
  | zero =>
    intro q r qq hc heq
    exact Option.noConfusion heq
  | succ n ih =>
    intro q r qq hc heq
    rw [popGo_succ] at heq
    rcases hg1 : q.slots[prevIdx q.tail q.slots.length]? with _ | prv
    · rw [hg1] at heq
      dsimp only at heq
      simp only [Option.some.injEq, Prod.mk.injEq] at heq
      rw [← heq.2]
      exact hc
    · rw [hg1] at heq
      rcases hg2 : q.slots[q.tail]? with _ | cur
      · rw [hg2] at heq
        dsimp only at heq
        simp only [Option.some.injEq, Prod.mk.injEq] at heq
        rw [← heq.2]
        exact hc
      · rw [hg2] at heq
        dsimp only at heq
        rcases hsk : popSkip W (n + 1) q q.tail prv.1 prv.2 cur.1 cur.2 with _ | skr
        · rw [hsk] at heq
          exact Option.noConfusion heq
        · rcases skr with _ | ⟨t2, pc, pp, cc, cp⟩
          · rw [hsk] at heq
            dsimp only at heq
            simp only [Option.some.injEq, Prod.mk.injEq] at heq
            rw [← heq.2]
            exact hc
          · rw [hsk] at heq
            dsimp only at heq
            split at heq
            · simp only [Option.some.injEq, Prod.mk.injEq] at heq
              rw [← heq.2]
              exact hc
            · split at heq
              · simp only [Option.some.injEq, Prod.mk.injEq] at heq
                rw [← heq.2]
                intro s2 hs2
                rcases List.mem_or_eq_of_mem_set hs2 with hmem | rfl
                · exact hc _ hmem
                · simpa using Nat.mod_lt (cc + 1) (show 0 < W by omega)
              · exact ih q r qq hc heq

/-! ### Chained pushes and pops -/

theorem pushList_seq [DecidableEq α] (f : Nat → α) (W N fuel : Nat)
    (hN : 0 < N) (hW : 2 ≤ W) (hWM : 2 * W ≤ 2 ^ 64) :
    ∀ (k P Q : Nat), Q ≤ P → P + k ≤ Q + N →
      pushList W (fuel + 1) (SeqState f W P Q N) (List.map f (List.range' P k)) =
        some (SeqState f W (P + k) Q N) := by
  intro k
  induction k with
  | zero =>
    intro P Q h1 h2
    simp [pushList]
  | succ n ih =>
    intro P Q h1 h2
    rw [List.range'_succ, List.map_cons]
    have hp := pushF_seq f (f P) W N P Q fuel hN hW hWM h1 (by omega)
    rw [Function.update_eq_self] at hp
    simp only [pushList]
    rw [hp]
    have := ih (P + 1) Q (by omega) (by omega)
    rw [show P + 1 + n = P + (n + 1) from by omega] at this
    exact this

theorem popList_seq [DecidableEq α] (f : Nat → α) (W N fuel : Nat)
    (hN : 0 < N) (hW : 2 ≤ W) (hWM : 2 * W ≤ 2 ^ 64) :
    ∀ (k P Q : Nat), Q + k ≤ P → P ≤ Q + N →
      popList W (fuel + 1) (SeqState f W P Q N) k =
        some (List.map f (List.range' Q k), SeqState f W P (Q + k) N) := by
  intro k
  induction k with
  | zero =>
    intro P Q h1 h2
    simp [popList]
  | succ n ih =>
    intro P Q h1 h2
    rw [List.range'_succ, List.map_cons]
    have hp := popF_seq f W N P Q fuel hN hW hWM (by omega) h2
    simp only [popList]
    rw [hp]
    dsimp only
    rw [ih P (Q + 1) (by omega) (by omega)]
    dsimp only [Option.map]
    rw [show Q + 1 + n = Q + (n + 1) from by omega]
/-! ### Claim C1 -/

/-- C1: sequential round-trip FIFO order.  For every capacity `N ≥ 1` and
every sequence of `N` items, starting from a freshly constructed queue, `N`
pushes all succeed, the following `N` pops return exactly the pushed items in
push order, and the `(N+1)`-th pop returns `None` (leaving the state
unchanged).  `W` is the counter width read from the slot type
(hypotheses cover the tagged width `2^16`); one unit of fuel per operation
suffices: every loop exits in its first iteration. -/
theorem c1_fifo_roundtrip [DecidableEq α] (N W fuel : Nat) (f : Nat → α)
    (hN : 1 ≤ N) (hW : 2 ≤ W) (hWM : 2 * W ≤ 2 ^ 64) :
    ∃ qF qE : Queue α,
      pushList W (fuel + 1) (freshQ α N) (List.map f (List.range N)) = some qF ∧
      popList W (fuel + 1) qF N = some (List.map f (List.range N), qE) ∧
      popF W (fuel + 1) qE = some (none, qE) := by
  refine ⟨SeqState f W N 0 N, SeqState f W N N N, ?_, ?_, ?_⟩
  · rw [List.range_eq_range', freshQ_eq_SeqState f W N]
    have h := pushList_seq f W N fuel hN hW hWM N 0 0 (Nat.le_refl 0) (by omega)
    rw [Nat.zero_add] at h
    exact h
  · rw [List.range_eq_range']
    have h := popList_seq f W N fuel hN hW hWM N N 0 (by omega) (by omega)
    rw [Nat.zero_add] at h
    exact h
  · exact popF_seq_empty f W N N fuel hN hW hWM

/-- Witness for C1 at capacity 3 with the tagged width. -/
theorem c1_witness :
    ∃ qF qE : Queue Nat,
      pushList TaggedMAX_W 1 (freshQ Nat 3)
        (List.map (fun k => k) (List.range 3)) = some qF ∧
      popList TaggedMAX_W 1 qF 3 =
        some (List.map (fun k => k) (List.range 3), qE) ∧
      popF TaggedMAX_W 1 qE = some (none, qE) :=
  c1_fifo_roundtrip 3 TaggedMAX_W 0 (fun k => k) (by decide) (by decide) (by decide)

/-! ### Claim C3 -/

theorem forcePushGo_succ [DecidableEq α] (W fuel : Nat) (q : Queue α) (x : α)
    (popped : Option (Option α)) :
    forcePushGo W (fuel + 1) q x popped =
      match pushF W (fuel + 1) q x with
      | none => none
      | some (.ok, q1) => some (popped, q1)
      | some (.err x1, q1) =>
        match popF W (fuel + 1) q1 with
        | none => none
        | some (res, q2) => forcePushGo W fuel q2 x1 res := rfl

/-- C3 counterexample: on the sequentially reachable full queue `qFull2`
(capacity 2, holding `10, 20`), the source's `force_push` — which retries
`push` and calls `pop` after each failure — and the claim's overwriting-CAS
`force_push` (`forcePushSpecF`, modelled from the spec) produce different
results: they return the same displaced item but leave different states
(the source advances the `head`/`tail` hints through its pop and push, the
claimed single in-place CAS leaves them untouched). -/
theorem c3_counterexample :
    forcePushF TaggedMAX_W 5 qFull2 30 ≠ forcePushSpecF TaggedMAX_W 5 qFull2 30 := by
  decide

/-- C3 (amended): `force_push`, when a plain push reports full, does **not**
perform a single overwriting CAS on the head slot; it pops once (a pop-CAS on
the tail slot) and retries the push (a push-CAS on the now-free slot),
returning the last popped item.  On a sequentially full ghost state it
returns `Some` of the FIFO-oldest item `f Q` and leaves the queue equal to
the state after one pop and one push. -/
theorem c3_force_push_full [DecidableEq α] (W N fuel Q : Nat) (f : Nat → α) (x : α)
    (hN : 0 < N) (hW : 2 ≤ W) (hWM : 2 * W ≤ 2 ^ 64) :
    forcePushF W (fuel + 2) (SeqState f W (Q + N) Q N) x =
      some (some (some (f Q)),
        SeqState (Function.update f (Q + N) x) W (Q + N + 1) (Q + 1) N) := by
  show forcePushGo W (fuel + 1 + 1) (SeqState f W (Q + N) Q N) x none = _
  rw [forcePushGo_succ, pushF_seq_full f x W N Q (fuel + 1) hN hW hWM]
  dsimp only
  rw [popF_seq f W N (Q + N) Q (fuel + 1) hN hW hWM (by omega) (by omega)]
  dsimp only
  rw [forcePushGo_succ, pushF_seq f x W N (Q + N) (Q + 1) fuel hN hW hWM
    (by omega) (by omega)]

/-- Witness for C3 (amended) at capacity 2. -/
theorem c3_witness :
    forcePushF TaggedMAX_W 2 (SeqState (fun k => k) TaggedMAX_W 2 0 2) 30 =
      some (some (some 0),
        SeqState (Function.update (fun k => k) 2 30) TaggedMAX_W 3 1 2) :=
  c3_force_push_full TaggedMAX_W 2 0 0 (fun k => k) 30 (by decide) (by decide)
    (by decide)

/-! ### Claim C6 -/

/-- C6: full-error atomicity.  On every sequentially reachable queue state in
which all slots hold a non-null pointer, `push x` returns `Err` carrying back
exactly `x`, and the state — every slot's `(counter, pointer)` pair and both
hint indices — is returned unchanged. -/
theorem c6_push_full_atomic [DecidableEq α] (W N fuel : Nat) (q : Queue α) (x : α)
    (hN : 0 < N) (hW : 2 ≤ W) (hWM : 2 * W ≤ 2 ^ 64) (hr : Reach W N q)
    (hfull : ∀ s ∈ q.slots, s.2 ≠ none) :
    pushF W (fuel + 1) q x = some (.err x, q) := by
  haveI : Inhabited α := ⟨x⟩
  obtain ⟨f, P, Q, hQP, hPQ, rfl⟩ := Reach_repr hN hW hWM hr
  obtain rfl : P = Q + N := by
    by_contra hne
    have hvac := seq_head_vacant f W N P Q hN hQP (by omega)
    exact hfull _ (List.getElem?_mem hvac) rfl
  exact pushF_seq_full f x W N Q fuel hN hW hWM

/-- Witness for C6 on the full one-slot queue reached by `push 7`. -/
theorem c6_witness :
    pushF TaggedMAX_W 1 (⟨[(0, some 7)], 0, 0⟩ : Queue Nat) 5 =
      some (.err 5, (⟨[(0, some 7)], 0, 0⟩ : Queue Nat)) :=
  c6_push_full_atomic TaggedMAX_W 1 0 _ 5 (by decide) (by decide) (by decide)
    (Reach.push (freshQ Nat 1) _ .ok 7 1 Reach.init (by decide)) (by decide)

/-! ### Claim C7 -/

/-- C7 counterexample: an all-empty queue state with adversarial counters
`0, 2^15 − 1, 2^16 − 2` on which the claim fails: `pop` does not return
`None` — its stale-tail skip loop finds `comp` true at every index and
cycles forever (modelled here: 50 rounds of fuel are exhausted without
returning, while on every reachable state one unit of fuel suffices). -/
theorem c7_counterexample : popF TaggedMAX_W 50 qStar = none := by decide

/-- C7 (amended): for every **sequentially reachable** queue state in which
no slot holds a non-null pointer (in particular a freshly constructed
queue), `pop` returns `None` and performs no CAS, returning the state
unchanged. -/
theorem c7_pop_empty_reachable [DecidableEq α] [Inhabited α] (W N fuel : Nat)
    (q : Queue α) (hN : 0 < N) (hW : 2 ≤ W) (hWM : 2 * W ≤ 2 ^ 64)
    (hr : Reach W N q) (hempty : ∀ s ∈ q.slots, s.2 = none) :
    popF W (fuel + 1) q = some (none, q) := by
  obtain ⟨f, P, Q, hQP, hPQ, rfl⟩ := Reach_repr hN hW hWM hr
  obtain rfl : P = Q := by
    by_contra hne
    have hocc := seq_tail_occupied f W N P Q hN (by omega) hPQ
    have h2 := hempty _ (List.getElem?_mem hocc)
    simp at h2
  exact popF_seq_empty f W N P fuel hN hW hWM

/-- Witness for C7 (amended) on a fresh one-slot queue. -/
theorem c7_witness : popF TaggedMAX_W 1 (freshQ Nat 1) = some (none, freshQ Nat 1) :=
  c7_pop_empty_reachable TaggedMAX_W 1 0 (freshQ Nat 1) (by decide) (by decide)
    (by decide) Reach.init (by decide)

/-! ### Claim C10 -/

/-- C10: counter-range safety of the tagged encoding.  Every `push`/`pop`
keeps all slot counters strictly below the width `W` (in particular `2^16`
for the tagged encoding: push only ever installs a counter that the CAS just
compared against an in-range slot counter, or a value reduced `% W`; pop
installs `(c + 1) % W`), a fresh queue starts in range, and encoding a
counter `≥ 2^16` through `components_as_tagged` would silently lose its high
bits (it truncates to `c % 2^16`) — which therefore never happens during
queue operation. -/
theorem c10_counter_safety [DecidableEq α] :
    (∀ (W fuel : Nat) (q : Queue α) (x : α) (r : PushResult α) (qq : Queue α),
        1 ≤ W → CountersLT q W → pushF W fuel q x = some (r, qq) → CountersLT qq W) ∧
    (∀ (W fuel : Nat) (q : Queue α) (r : Option (Option α)) (qq : Queue α),
        1 ≤ W → CountersLT q W → popF W fuel q = some (r, qq) → CountersLT qq W) ∧
    (∀ N W : Nat, 1 ≤ W → CountersLT (freshQ α N) W) ∧
    (∀ c p : Nat, componentsAsTagged c p = componentsAsTagged (c % 2 ^ 16) p) := by
  refine ⟨?_, ?_, ?_, ?_⟩
  · intro W fuel q x r qq hW hc heq
    exact pushGo_counters W hW fuel q q.head x r qq hc heq
  · intro W fuel q r qq hW hc heq
    exact popGo_counters W hW fuel q r qq hc heq
  · intro N W hW s hs
    have h2 := List.eq_of_mem_replicate hs
    rw [h2]
    exact hW
  · intro c p
    unfold componentsAsTagged
    have h : (c <<< 48) % 2 ^ 64 = ((c % 2 ^ 16) <<< 48) % 2 ^ 64 := by
      rw [Nat.shiftLeft_eq, Nat.shiftLeft_eq]
      omega
    rw [h]

/-- Witness for C10: pushing into a fresh one-slot queue keeps counters in
range for the tagged width. -/
theorem c10_witness : CountersLT (⟨[(0, some 7)], 0, 0⟩ : Queue Nat) TaggedMAX_W :=
  c10_counter_safety.1 TaggedMAX_W 1 (freshQ Nat 1) 7 .ok _ (by decide)
    (c10_counter_safety.2.2.1 1 TaggedMAX_W (by decide)) (by decide)

/-! ### Claim C2 -/

/-- C2 counterexample: at `i = 0, c_i = 0, j = 1, c_j = 2^63 − 1` and width
`W = 2^64 − 1` (the double-word width used by the source), `comp` returns
`true` although the claimed formula `((c_j + W − c_i) mod W) < W/2` is false:
the source computes the difference with wrapping u64 arithmetic, which loses
the carry once `c_j + W` exceeds `2^64`. -/
theorem c2_counterexample :
    comp 0 0 1 (2 ^ 63 - 1) (2 ^ 64 - 1) = true ∧
      ¬ (((2 ^ 63 - 1) + (2 ^ 64 - 1) - 0) % (2 ^ 64 - 1) < (2 ^ 64 - 1) / 2) := by
  constructor
  · decide
  · decide

/-- C2 (amended): `comp i c_i j c_j W` equals `i < j` when the counters are
equal; when they differ it equals `((c_j + W − c_i) mod W) < W/2` **provided
the intermediate sum `c_j + W − c_i` stays below `2^64`** (the source computes
it in wrapping u64 arithmetic); and `comp` is antisymmetric for counters below
`W` whenever `2W ≤ 2^64` or `W = 2^64 − 1` (which covers both widths used by
the source, `2^16` and `2^64 − 1`). -/
theorem c2_comp_characterisation :
    (∀ i u j v w : Nat, u = v → comp i u j v w = decide (i < j)) ∧
    (∀ i u j v w : Nat, u ≠ v → u < 2 ^ 64 → u ≤ v + w → v + w - u < 2 ^ 64 →
      (comp i u j v w = true ↔ (v + w - u) % w < w / 2)) ∧
    (∀ i u j v w : Nat, u < w → v < w → (2 * w ≤ 2 ^ 64 ∨ w = 2 ^ 64 - 1) →
      (i, u) ≠ (j, v) → ¬(comp i u j v w = true ∧ comp j v i u w = true)) := by
  refine ⟨fun i u j v w h => comp_eq_of_eq h, fun i u j v w hne hu hle hlt => ?_,
    fun i u j v w hu hv hw hne => ?_⟩
  · rw [comp_true_iff_of_ne hne, wrapDiff_eq u v w hu hle hlt]
  · rintro ⟨h1, h2⟩
    rcases Nat.lt_trichotomy u v with h | h | h
    · exact comp_asym_aux hu hv h hw h1 h2
    · subst h
      rw [comp_eq_of_eq rfl] at h1 h2
      simp at h1 h2
      omega
    · exact comp_asym_aux hv hu h hw h2 h1

/-- Witness for C2 at concrete inputs with the tagged width `2^16`. -/
theorem c2_witness :
    (comp 0 5 1 5 TaggedMAX_W = decide ((0 : Nat) < 1)) ∧
    (comp 2 1 3 2 TaggedMAX_W = true ↔ (2 + TaggedMAX_W - 1) % TaggedMAX_W < TaggedMAX_W / 2) ∧
    ¬(comp 0 1 1 2 TaggedMAX_W = true ∧ comp 1 2 0 1 TaggedMAX_W = true) := by
  obtain ⟨a, b, c⟩ := c2_comp_characterisation
  exact ⟨a 0 5 1 5 TaggedMAX_W rfl,
    b 2 1 3 2 TaggedMAX_W (by decide) (by decide) (by decide) (by decide),
    c 0 1 1 2 TaggedMAX_W (by decide) (by decide) (Or.inl (by decide)) (by decide)⟩

/-! ### Claim C4 -/

/-- C4: tagged-encoding round-trip.  For every counter `c < 2^16` and every
canonical pointer `p` (top 16 bits equal to the sign-extension of bit 47),
decoding after encoding reproduces the pair exactly. -/
theorem c4_tagged_roundtrip (c p : Nat) (hc : c < 2 ^ 16) (hp : Canonical p) :
    componentsFromTagged (componentsAsTagged c p) = (c, p) := by
  obtain ⟨hp64, hsign⟩ := hp
  have hr : p % 2 ^ 48 < 2 ^ 48 := Nat.mod_lt _ (by norm_num)
  have hbound : c * 2 ^ 48 < 2 ^ 64 := by
    calc c * 2 ^ 48 < 2 ^ 16 * 2 ^ 48 := by
          exact Nat.mul_lt_mul_of_lt_of_le hc (Nat.le_refl _) (by norm_num)
      _ = 2 ^ 64 := by norm_num
  have henc : componentsAsTagged c p = 2 ^ 48 * c + p % 2 ^ 48 := by
    unfold componentsAsTagged
    rw [Nat.shiftLeft_eq, Nat.and_pow_two_sub_one_eq_mod, Nat.mod_eq_of_lt hbound,
      mul_comm c]
    exact (Nat.mul_add_lt_is_or hr c).symm
  unfold componentsFromTagged
  rw [henc, Nat.shiftRight_eq_div_pow, Nat.and_pow_two_sub_one_eq_mod]
  have hdiv : (2 ^ 48 * c + p % 2 ^ 48) / 2 ^ 48 = c := by
    rw [Nat.mul_add_div (by norm_num), Nat.div_eq_of_lt hr]
    omega
  have hmod : (2 ^ 48 * c + p % 2 ^ 48) % 2 ^ 48 = p % 2 ^ 48 := by
    omega
  rw [hdiv, hmod, hsign]

/-- Witness for C4: counter `0xDEAD`, pointer `u64::MAX` (canonical). -/
theorem c4_witness :
    componentsFromTagged (componentsAsTagged 57005 (2 ^ 64 - 1)) = (57005, 2 ^ 64 - 1) :=
  c4_tagged_roundtrip 57005 (2 ^ 64 - 1) (by decide) ⟨by decide, by decide⟩

/-! ### Claim C5 -/

/-- C5: `len` computes exactly the specified formula, and its result is
always between `0` and `N` inclusive: with in-range hints, if `head ≠ tail`
it returns `(head − tail) mod N` (written `(head + N − tail) % N` over `ℕ`);
if `head = tail` it samples the slot at `head` and returns `0` on a null
pointer and `N` otherwise. -/
theorem c5_len_formula (q : Queue α) (hH : q.head < q.slots.length)
    (hT : q.tail < q.slots.length) :
    (q.head ≠ q.tail →
      lenQ q = some ((q.head + q.slots.length - q.tail) % q.slots.length)) ∧
    (∀ s : Slot α, q.head = q.tail → q.slots[q.head]? = some s →
      lenQ q = some (if s.2.isNone then 0 else q.slots.length)) ∧
    (∀ L, lenQ q = some L → L ≤ q.slots.length) := by
  refine ⟨fun hne => ?_, fun s heq hs => ?_, fun L hL => ?_⟩
  · unfold lenQ
    rw [if_pos hne]
    congr 1
    rcases Nat.lt_or_ge q.head q.tail with h | h
    · rw [if_pos h, Nat.mod_eq_of_lt (by omega)]
      omega
    · rw [if_neg (by omega)]
      have h2 : q.head + q.slots.length - q.tail = (q.head - q.tail) + q.slots.length := by
        omega
      rw [h2, Nat.add_mod_right, Nat.mod_eq_of_lt (by omega)]
  · unfold lenQ
    rw [if_neg (by simp [heq]), hs]
    rfl
  · unfold lenQ at hL
    split at hL
    · rw [Option.some_inj] at hL
      split at hL <;> omega
    · rcases hget : q.slots[q.head]? with _ | s
      · rw [hget] at hL
        simp at hL
      · rw [hget] at hL
        simp at hL
        split at hL <;> omega

/-- Witness for C5: the full 2-slot queue has `len = 2`. -/
theorem c5_witness : lenQ qFull2 = some 2 := by
  simpa using (c5_len_formula qFull2 (by decide) (by decide)).2.1 (0, some 10)
    rfl (by decide)

/-! ### Claim C8 -/

/-- C8: both public constructors refuse a zero capacity (modelled as the
`none` panic path), and for every `N ≥ 1` construction succeeds with
`capacity() = N`. -/
theorem c8_constructors (α : Type) :
    heapBackedNew α 0 = none ∧ heaplessNew α 0 = none ∧
    ∀ n : Nat, 0 < n →
      (∃ q : Queue α, heapBackedNew α n = some q ∧ capacityQ q = n) ∧
      (∃ q : Queue α, heaplessNew α n = some q ∧ capacityQ q = n) := by
  refine ⟨rfl, rfl, fun n hn => ?_⟩
  refine ⟨⟨freshQ α n, ?_, ?_⟩, ⟨freshQ α n, ?_, ?_⟩⟩ <;>
    simp [heapBackedNew, heaplessNew, freshQ, capacityQ, hn]

/-- Witness for C8 at capacity 3. -/
theorem c8_witness :
    (∃ q : Queue Nat, heapBackedNew Nat 3 = some q ∧ capacityQ q = 3) ∧
    (∃ q : Queue Nat, heaplessNew Nat 3 = some q ∧ capacityQ q = 3) :=
  (c8_constructors Nat).2.2 3 (by decide)

/-! ### Claim C9 -/

/-- C9 counterexample: the double-word slot encoding's counter width constant
`DWordItemInner::MAX_W` is `u64::MAX`, which is not `2^64`. -/
theorem c9_counterexample : DWordMAX_W ≠ 2 ^ 64 := by decide

/-- C9 (amended): the double-word encoding's counter width is
`u64::MAX = 2^64 − 1` (the claim says `2^64`, which a `u64` cannot hold);
the tagged encoding's width is `2^16` as claimed. -/
theorem c9_widths : DWordMAX_W = 2 ^ 64 - 1 ∧ TaggedMAX_W = 2 ^ 16 := by
  constructor <;> decide

end Nblfq
